import Mathlib

/-! ## Character classes and basic utilities -/

/-- JavaScript `\s` (ASCII repertoire): space, tab, newline, carriage
return, vertical tab, form feed. -/
def jsSpace (c : Char) : Bool :=
  c = ' ' || c = '\t' || c = '\n' || c = '\r' || c = '\x0b' || c = '\x0c'

/-- JavaScript `\w`: ASCII letters, digits and underscore. -/
def wordChar (c : Char) : Bool :=
  c.isAlphanum || c = '_'

/-- JavaScript `String.prototype.trim` on a line (no surrounding `\n`
present, but `\r` and blanks are trimmed from both ends). -/
def trimL (l : List Char) : List Char :=
  ((l.dropWhile jsSpace).reverse.dropWhile jsSpace).reverse

/-- Model of `content.split('\n')`: split into lines, keeping empty pieces exactly
as JavaScript does (`"" ↦ [""]`, a trailing newline yields a final empty
line). -/
def splitLines : List Char → List (List Char)
  | [] => [[]]
  | c :: rest =>
    if c = '\n' then [] :: splitLines rest
    else
      match splitLines rest with
      | [] => [[c]]
      | l :: ls => (c :: l) :: ls

/-- Strip a literal pattern from the front, returning the remainder on
success. -/
def stripL : List Char → List Char → Option (List Char)
  | [], cs => some cs
  | _ :: _, [] => none
  | p :: ps, c :: cs => if p = c then stripL ps cs else none

/-- Pattern `\s+` (greedy, forced): require at least one JS whitespace character
and drop the maximal run. -/
def dropSpaces1 : List Char → Option (List Char)
  | [] => none
  | c :: rest => if jsSpace c then some (rest.dropWhile jsSpace) else none

/-- Pattern `\w+` (greedy, forced): take the maximal nonempty word-character run. -/
def takeWord1 (cs : List Char) : Option (List Char × List Char) :=
  if (cs.takeWhile wordChar).isEmpty then none
  else some (cs.takeWhile wordChar, cs.drop (cs.takeWhile wordChar).length)

/-- Pattern `\s*$` under the JavaScript `m` flag: skip whitespace and succeed if an
end of line (`\n`, `\r`) or the end of the input is reachable. -/
def wsToEol : List Char → Bool
  | [] => true
  | c :: rest =>
    if c = '\n' || c = '\r' then true
    else jsSpace c && wsToEol rest

/-- Does the list start with the given character? -/
def startsChar (cs : List Char) (c : Char) : Bool :=
  match cs with
  | [] => false
  | d :: _ => d = c

/-! ## The two import-detection regexes of `findTaskFunctions`

Source (`src/unnamed/part_006`, lines 210-213):

    const fromPytaskImport = content.match(
      /from\s+pytask\s+import\s+(?:\(?\s*(?:[\w]+\s*,\s*)*task(?:\s+as\s+(\w+))?(?:\s*,\s*[\w]+)*\s*\)?)/
    );
    const importPytask = content.match(/import\s+pytask(?:\s+as\s+(\w+))?\s*$/m);

The trailing `(?:\s*,\s*[\w]+)*\s*\)?` of the first pattern can always
match the empty string and captures nothing, so it affects neither match
success nor the captured alias and is not modelled. -/

/-- Pattern `(?:\s+as\s+(\w+))` — the aliasing clause, returning the captured
alias and the remainder. -/
def asClause (cs : List Char) : Option (List Char × List Char) :=
  match dropSpaces1 cs with
  | none => none
  | some r1 =>
    match stripL "as".data r1 with
    | none => none
    | some r2 =>
      match dropSpaces1 r2 with
      | none => none
      | some r3 => takeWord1 r3

/-- Pattern `import\s+pytask(?:\s+as\s+(\w+))?\s*$` (with `m` flag) anchored at the
start of `cs`; returns `some alias?` on success. The optional group is
greedy: the `as` clause is attempted first; if it (or the following
`\s*$`) fails, the match falls back to the alias-free form. -/
def matchImportPytaskAt (cs : List Char) : Option (Option (List Char)) :=
  match stripL "import".data cs with
  | none => none
  | some r1 =>
    match dropSpaces1 r1 with
    | none => none
    | some r2 =>
      match stripL "pytask".data r2 with
      | none => none
      | some r3 =>
        match asClause r3 with
        | some (w, r4) =>
          if wsToEol r4 then some (some w) else if wsToEol r3 then some none else none
        | none => if wsToEol r3 then some none else none

/-- Pattern `(?:[\w]+\s*,\s*)*task(?:\s+as\s+(\w+))?` with the backtracking
preference of a greedy star: first try to consume one more
`[\w]+\s*,\s*` unit (whose runs are forced) and match deeper; only if
that whole continuation fails, match the literal `task` here. After
`task` the greedy optional `as` clause is attempted; everything that
follows in the source pattern matches the empty string, so a successful
`task` always completes the match. -/
def unitsThenTask : Nat → List Char → Option (Option (List Char))
  | 0, _ => none
  | fuel + 1, cs =>
    let deeper : Option (Option (List Char)) :=
      match takeWord1 cs with
      | none => none
      | some (_, r1) =>
        match r1.dropWhile jsSpace with
        | ',' :: r2 => unitsThenTask fuel (r2.dropWhile jsSpace)
        | _ => none
    match deeper with
    | some res => some res
    | none =>
      match stripL "task".data cs with
      | none => none
      | some r =>
        match asClause r with
        | some (w, _) => some (some w)
        | none => some none

/-- Pattern `from\s+pytask\s+import\s+(?:\(?\s*(?:[\w]+\s*,\s*)*task(?:\s+as\s+(\w+))?...)`
anchored at the start of `cs`. -/
def matchFromImportAt (cs : List Char) : Option (Option (List Char)) := do
  let r1 ← stripL "from".data cs
  let r2 ← dropSpaces1 r1
  let r3 ← stripL "pytask".data r2
  let r4 ← dropSpaces1 r3
  let r5 ← stripL "import".data r4
  let r6 ← dropSpaces1 r5
  let r7 := match r6 with
    | '(' :: t => t
    | _ => r6
  let r8 := r7.dropWhile jsSpace
  unitsThenTask (r8.length + 1) r8

/-- Unanchored search: try the matcher at every start index, leftmost
first, exactly like `String.prototype.match` without the `g` flag. -/
def searchMatch (f : List Char → Option α) : List Char → Option α
  | [] => f []
  | c :: rest =>
    match f (c :: rest) with
    | some r => some r
    | none => searchMatch f rest

/-! ## Extractor configuration (import pre-scan) -/

/-- The four variables `hasTaskImport`, `taskAlias`, `hasPytaskImport`,
`pytaskAlias` of `findTaskFunctions`. -/
structure ImportCfg where
  hasTaskImport : Bool
  taskAlias : List Char
  hasPytaskImport : Bool
  pytaskAlias : List Char
deriving Repr, DecidableEq

/-- The import pre-scan of `findTaskFunctions` (part_006 lines 199-226):
defaults `task`/`pytask`, overridden by a captured `as` alias. -/
def importCfg (content : List Char) : ImportCfg :=
  let fromRes := searchMatch matchFromImportAt content
  let impRes := searchMatch matchImportPytaskAt content
  { hasTaskImport := fromRes.isSome
    taskAlias :=
      match fromRes with
      | some (some a) => a
      | _ => "task".data
    hasPytaskImport := impRes.isSome
    pytaskAlias :=
      match impRes with
      | some (some a) => a
      | _ => "pytask".data }

/-! ## The decorator-aware extractor (`part_006` `findTaskFunctions`) -/

/-- A `TaskItem` as constructed by the extractor: label (function name),
file path and 1-based line number. -/
structure TaskItem where
  label : String
  filePath : String
  lineNumber : Nat
deriving Repr, DecidableEq

/-- Pattern `^def\s+(\w+)\s*\(` on an (already trimmed) line; every greedy run is
forced by the following literal. Returns the captured function name. -/
def defMatch (cs : List Char) : Option (List Char) := do
  let r1 ← stripL "def".data cs
  let r2 ← dropSpaces1 r1
  let (w, r3) ← takeWord1 r2
  match r3.dropWhile jsSpace with
  | '(' :: _ => some w
  | _ => none

/-- The decorator test of part_006 line 239-241:
`(hasTaskImport && line === `@${taskAlias}`) ||
 (hasPytaskImport && line.startsWith(`@${pytaskAlias}.task`))`. -/
def decoMatch (cfg : ImportCfg) (line : List Char) : Bool :=
  (cfg.hasTaskImport && line == '@' :: cfg.taskAlias) ||
  (cfg.hasPytaskImport && ('@' :: (cfg.pytaskAlias ++ ".task".data)).isPrefixOf line)

/-- The scanning loop of `findTaskFunctions` (part_006 lines 232-255):
line index `i`, pending-decorator flag `isDec`. -/
def scanTasks (cfg : ImportCfg) (fp : String) : Nat → Bool → List (List Char) → List TaskItem
  | _, _, [] => []
  | i, isDec, l :: ls =>
    let line := trimL l
    if startsChar line '@' then
      scanTasks cfg fp (i + 1) (decoMatch cfg line) ls
    else
      match defMatch line with
      | some name =>
        (if "task_".data.isPrefixOf name || isDec then
          [{ label := ⟨name⟩, filePath := fp, lineNumber := i + 1 }]
        else []) ++ scanTasks cfg fp (i + 1) false ls
      | none => scanTasks cfg fp (i + 1) isDec ls

/-- Model of `PyTaskProvider.findTaskFunctions` of part_006: pre-scan the imports,
scan the lines, sort the tasks by `label.localeCompare` (modelled by the
abstract collator `lc`). -/
def findTaskFunctions (lc : String → String → Int) (fp : String) (content : String) :
    List TaskItem :=
  List.insertionSort (fun a b => lc a.label b.label ≤ 0)
    (scanTasks (importCfg content.data) fp 0 false (splitLines content.data))

/-! ## The simple extractor (`src/src/extension.ts` `findTaskFunctions`) -/

/-- A `TaskDefinition` of extension.ts. -/
structure TaskDefinition where
  name : String
  lineNumber : Nat
deriving Repr, DecidableEq

/-- Pattern `def\s+(task_\w+)\s*\(` anchored at the start of `cs` (the runs are
forced by the following literals). -/
def defTaskMatchAt (cs : List Char) : Option (List Char) := do
  let r1 ← stripL "def".data cs
  let r2 ← dropSpaces1 r1
  let r3 ← stripL "task_".data r2
  let (w, r4) ← takeWord1 r3
  match r4.dropWhile jsSpace with
  | '(' :: _ => some ("task_".data ++ w)
  | _ => none

/-- Scanning loop of the extension.ts extractor: untrimmed lines, unanchored
regex search per line, no decorator handling, no sorting. -/
def scanTasksSimple : Nat → List (List Char) → List TaskDefinition
  | _, [] => []
  | i, l :: ls =>
    (match searchMatch defTaskMatchAt l with
      | some name => [{ name := ⟨name⟩, lineNumber := i + 1 }]
      | none => []) ++ scanTasksSimple (i + 1) ls

/-- Model of `PyTaskProvider.findTaskFunctions` of `src/src/extension.ts`. -/
def findTaskFunctionsSimple (content : String) : List TaskDefinition :=
  scanTasksSimple 0 (splitLines content.data)

/-! ## The workspace tree builder (`src/src/extension.ts` `buildFileTree`)

Tree nodes: `FolderItem` (children `FolderItem | ModuleItem`, here both as
`Node`), `ModuleItem` (children `TaskItem`). -/

inductive Node where
  | folder (label : String) (children : List Node) (folderPath : String)
  | module (label : String) (tasks : List TaskItem) (filePath : String)
deriving Repr

/-- Test `instanceof FolderItem`. -/
def isFolderB : Node → Bool
  | .folder _ _ _ => true
  | .module _ _ _ => false

/-- The display label of a node. -/
def labelN : Node → String
  | .folder l _ _ => l
  | .module l _ _ => l

/-- A file found by `findFiles`, identified by its directory path relative
to its workspace root (as segments; `[]` is the root itself, where
`path.dirname` yields `"."`) and its base name. -/
structure RelFile where
  dir : List String
  fileName : String
deriving Repr, DecidableEq

/-- Join path segments with the separator (`path.join` / `path.sep` on a
POSIX-style path). -/
def joinSegs : List String → String
  | [] => ""
  | [s] => s
  | s :: rest => s ++ "/" ++ joinSegs rest

/-- The absolute `fsPath` of an enumerated file (it lies under its root). -/
def absPath (root : String) (f : RelFile) : String :=
  root ++ "/" ++ joinSegs (f.dir ++ [f.fileName])

/-- Model of `path.basename` for the slash-free labels it is applied to. -/
def basenameStr (s : String) : String :=
  ⟨(s.data.reverse.takeWhile (fun c => c ≠ '/')).reverse⟩

/-- A JavaScript `Map<string, Node>` as an insertion-ordered association
list: `set` replaces in place or appends, `values` is `map (·.2)`. -/
def getKV (m : List (String × Node)) (k : String) : Option Node :=
  (m.find? (fun e => e.1 = k)).map (·.2)

/-- Model of `Map.prototype.set`: replace the binding in place if the key is
present (a JS `Map` holds each key at most once), otherwise append. -/
def setKV : List (String × Node) → String → Node → List (String × Node)
  | [], k, v => [(k, v)]
  | e :: m, k, v => if e.1 = k then (k, v) :: m else e :: setKV m k v

/-- State of the folder-hierarchy loop (extension.ts lines 141-164):
`rootItems`, the map currently bound to `currentItems`, whether that map
is still the `rootItems` object itself (writes alias through), and the
accumulated `currentPath`. Writes into later (temporary) maps never reach
`rootItems`: they only ever insert fresh `FolderItem`s, and no existing
folder object is mutated inside the loop. -/
structure FLState where
  rootItems : List (String × Node)
  currentItems : List (String × Node)
  atRoot : Bool
  currentPath : String

/-- One iteration `for (const part of pathParts)` of the folder loop. -/
def flStep (wsRoot : String) (st : FLState) (part : String) : FLState :=
  let currentPath := if st.currentPath = "" then part else st.currentPath ++ "/" ++ part
  let fullPath := wsRoot ++ "/" ++ currentPath
  let cur :=
    if (getKV st.currentItems currentPath).isSome then st.currentItems
    else setKV st.currentItems currentPath (Node.folder part [] fullPath)
  let root := if st.atRoot then cur else st.rootItems
  match getKV cur currentPath with
  | some (Node.folder _ children _) =>
    { rootItems := root
      currentItems := children.filterMap (fun c =>
        match c with
        | Node.folder l cs p => some (basenameStr l, Node.folder l cs p)
        | _ => none)
      atRoot := false
      currentPath := currentPath }
  | _ =>
    { rootItems := root, currentItems := cur, atRoot := st.atRoot, currentPath := currentPath }

/-- The whole folder-hierarchy loop for one file; returns the updated
`rootItems`. -/
def folderLoop (wsRoot : String) (dir : List String) (m : List (String × Node)) :
    List (String × Node) :=
  (dir.foldl (flStep wsRoot)
    { rootItems := m, currentItems := m, atRoot := true, currentPath := "" }).rootItems

/-- Processing of one enumerated file (extension.ts lines 135-185): build
the folder hierarchy, read the file (`fs.readFileSync`, whose failure
throws and aborts `buildFileTree`), extract its tasks, and attach the new
`ModuleItem` at the root map or to its parent folder's `children`. -/
def processFile (fsys : String → Option String) (root : String)
    (m : List (String × Node)) (f : RelFile) : Except Unit (List (String × Node)) :=
  let m1 := if f.dir = [] then m else folderLoop root f.dir m
  match fsys (absPath root f) with
  | none => Except.error ()
  | some content =>
    let taskNodes := (findTaskFunctionsSimple content).map (fun td =>
      { label := td.name, filePath := absPath root f, lineNumber := td.lineNumber : TaskItem })
    let moduleItem := Node.module f.fileName taskNodes (absPath root f)
    Except.ok <|
      if f.dir = [] then setKV m1 f.fileName moduleItem
      else
        match getKV m1 (joinSegs f.dir) with
        | some (Node.folder l cs p) =>
          setKV m1 (joinSegs f.dir) (Node.folder l (cs ++ [moduleItem]) p)
        | _ => m1

/-- Loop `for (const taskFile of taskFiles)`. -/
def processFiles (fsys : String → Option String) (root : String) :
    List (String × Node) → List RelFile → Except Unit (List (String × Node))
  | m, [] => Except.ok m
  | m, f :: fs =>
    match processFile fsys root m f with
    | Except.error e => Except.error e
    | Except.ok m' => processFiles fsys root m' fs

/-- Loop `for (const folder of workspaceFolders)`. -/
def processFolders (fsys : String → Option String) :
    List (String × Node) → List (String × List RelFile) → Except Unit (List (String × Node))
  | m, [] => Except.ok m
  | m, (root, files) :: rest =>
    match processFiles fsys root m files with
    | Except.error e => Except.error e
    | Except.ok m' => processFolders fsys m' rest

/-! ### Sorting (`sortItems`, extension.ts lines 189-206) -/

/-- The comparator of `sortItems`: folders before modules, otherwise
`label.localeCompare`; we use the relation `cmp ≤ 0`. -/
def nodeCmpI (lc : String → String → Int) (a b : Node) : Int :=
  if isFolderB a && !isFolderB b then -1
  else if !isFolderB a && isFolderB b then 1
  else lc (labelN a) (labelN b)

/-- The sort relation on nodes induced by the comparator. -/
def nodeLe (lc : String → String → Int) (a b : Node) : Prop :=
  nodeCmpI lc a b ≤ 0

instance (lc : String → String → Int) : DecidableRel (nodeLe lc) := fun a b =>
  decidable_of_iff (nodeCmpI lc a b ≤ 0) Iff.rfl

/-- The sort relation on task items (`a.label.localeCompare(b.label)`). -/
def taskLe (lc : String → String → Int) (a b : TaskItem) : Prop :=
  lc a.label b.label ≤ 0

instance (lc : String → String → Int) : DecidableRel (taskLe lc) := fun a b =>
  decidable_of_iff (lc a.label b.label ≤ 0) Iff.rfl

mutual
/-- The recursion of `sortItems` into one node: a folder's children are
sorted recursively, a module's task list is sorted by label. The source
sorts a level first and then recurses into each node's children; since
the comparator reads only the kind and label of a node, both preserved by
the recursion, recursing first is observationally identical and admits
structural recursion. -/
def sortNode (lc : String → String → Int) : Node → Node
  | Node.folder l cs p => Node.folder l ((sortNodes lc cs).insertionSort (nodeLe lc)) p
  | Node.module l ts p => Node.module l (ts.insertionSort (taskLe lc)) p
termination_by structural n => n
def sortNodes (lc : String → String → Int) : List Node → List Node
  | [] => []
  | n :: ns => sortNode lc n :: sortNodes lc ns
termination_by structural ns => ns
end

/-- Model of `sortItems` (extension.ts lines 189-206): sort the given level with
folders-before-modules / locale-alphabetical order, recursing the same
rule into every folder's children and sorting every module's tasks. -/
def sortItems (lc : String → String → Int) (ns : List Node) : List Node :=
  (sortNodes lc ns).insertionSort (nodeLe lc)

/-- Model of `PyTaskProvider.buildFileTree` of `src/src/extension.ts`: no workspace
folders yields an empty tree; otherwise all roots' enumerated files are
processed into the shared `rootItems` map, and the values are sorted
recursively. A `readFileSync` failure (modelled by `fsys` returning
`none`) throws, aborting the whole build. -/
def buildFileTree (lc : String → String → Int) (fsys : String → Option String)
    (ws : Option (List (String × List RelFile))) : Except Unit (List Node) :=
  match ws with
  | none => Except.ok []
  | some folders =>
    match processFolders fsys [] folders with
    | Except.error e => Except.error e
    | Except.ok m => Except.ok (sortItems lc (m.map (·.2)))

/-! ## A concrete collator for witnesses

`localeCompare` is abstract in the theorems; witnesses instantiate it with
plain code-point lexicographic comparison, which satisfies the totality
and transitivity assumptions. -/

/-- Code-point lexicographic three-way comparison. -/
def lexCmp : List Char → List Char → Int
  | [], [] => 0
  | [], _ :: _ => -1
  | _ :: _, [] => 1
  | a :: as, b :: bs =>
    if a.toNat < b.toNat then -1 else if b.toNat < a.toNat then 1 else lexCmp as bs

/-- A concrete collator: code-point lexicographic comparison. -/
def lc0 (a b : String) : Int := lexCmp a.data b.data

/-! ## Declarative characterization of the pending-decorator flag

Instead of re-running the forward state machine, we characterize the flag
at a definition line by looking back: the flag is determined by the most
recent earlier line that is a decorator line or a function-definition line
(`affectsFlagB`); it is true exactly when that line is a decorator line
matching the imported marker. -/

/-- Does a (raw) line set or reset the pending-decorator flag? Decorator
lines re-evaluate it; definition lines reset it; all other lines leave it
unchanged. -/
def affectsFlagB (l : List Char) : Bool :=
  startsChar (trimL l) '@' || (defMatch (trimL l)).isSome

/-- The most recent flag-affecting line of a prefix of the file. -/
def lastFlagLine (pre : List (List Char)) : Option (List Char) :=
  pre.reverse.find? affectsFlagB

/-- The value of the pending-decorator flag just before processing line
`i`, starting from initial flag value `d`. -/
def flagBefore (cfg : ImportCfg) (d : Bool) (lines : List (List Char)) (i : Nat) : Bool :=
  match lastFlagLine (lines.take i) with
  | some l => decoMatch cfg (trimL l)
  | none => d

/-! ## Claim C1 -/

/-- The literal reading of "the definition is immediately preceded by a
decorator line that matches": the directly preceding line passes the
decorator test. -/
def immediatelyPrecededB (cfg : ImportCfg) (lines : List (List Char)) (k : Nat) : Bool :=
  match k with
  | 0 => false
  | j + 1 => decoMatch cfg (trimL (lines.getD j []))

/-- Claim C1 as stated, as an executable check over one file content (with
the concrete collator; membership does not depend on the collator): every
definition line is classified as a task exactly when its name starts with
`task_` or the *immediately* preceding line is a matching decorator. -/
def c1ClaimHolds (fp content : String) : Bool :=
  let lines := splitLines content.data
  let cfg := importCfg content.data
  (List.range lines.length).all fun k =>
    match defMatch (trimL (lines.getD k [])) with
    | none => true
    | some name =>
      ((findTaskFunctions lc0 fp content).contains
        { label := ⟨name⟩, filePath := fp, lineNumber := k + 1 }) ==
      ("task_".data.isPrefixOf name || immediatelyPrecededB cfg lines k)

/-! ## Claim C9: declarative reading of the module-import pattern -/

/-- A nonempty all-whitespace run (`\s+`). -/
def SpacesRun (l : List Char) : Prop := l ≠ [] ∧ ∀ c ∈ l, jsSpace c = true

/-- A nonempty word run (`\w+`). -/
def WordRun (l : List Char) : Prop := l ≠ [] ∧ ∀ c ∈ l, wordChar c = true

/-- Predicate stating `t` does not begin with a character satisfying `p`. -/
def HeadNot (p : Char → Bool) (t : List Char) : Prop :=
  ∀ c t', t = c :: t' → p c = false

/-- Declarative reading of the statement pattern
`import\s+pytask(?:\s+as\s+(\w+))?\s*$` anchored at the start of `cs`:
the literal `import`, an (arbitrary, possibly line-spanning) whitespace
run, the literal `pytask`, an optional `as`-alias clause, and then only
whitespace up to an end of line or the end of the content. -/
def ImportPytaskStmtAt (cs : List Char) : Prop :=
  ∃ s1 asPart rest,
    cs = "import".data ++ s1 ++ "pytask".data ++ asPart ++ rest ∧
    SpacesRun s1 ∧
    (asPart = [] ∨ ∃ s2 s3 w, asPart = s2 ++ "as".data ++ s3 ++ w ∧
      SpacesRun s2 ∧ SpacesRun s3 ∧ WordRun w) ∧
    wsToEol rest = true

/-! ## Claim C5: the built tree is recursively sorted -/

/-- Recursive sortedness of one node: a folder's children obey the
folders-before-modules / locale-alphabetical order and are recursively
sorted; a module's tasks are sorted by label. -/
inductive NodeSorted (lc : String → String → Int) : Node → Prop where
  | folder : ∀ l cs p, List.Sorted (nodeLe lc) cs → (∀ c ∈ cs, NodeSorted lc c) →
      NodeSorted lc (Node.folder l cs p)
  | module : ∀ l ts p, List.Sorted (taskLe lc) ts → NodeSorted lc (Node.module l ts p)

/-- Recursive sortedness of a whole node level (the ordering rule of
`sortItems` at the root list and, hereditarily, at every depth). -/
def TreeSorted (lc : String → String → Int) (ns : List Node) : Prop :=
  List.Sorted (nodeLe lc) ns ∧ ∀ n ∈ ns, NodeSorted lc n

/-! ## Claim C10: the shared root map collapses same-named root files -/

/-- Is the node a `ModuleItem`? -/
def isModuleB : Node → Bool
  | Node.folder _ _ _ => false
  | Node.module _ _ _ => true

/-- The keys of the map are pairwise distinct (a `Map` invariant). -/
def KeysNoDup (m : List (String × Node)) : Prop := (m.map Prod.fst).Nodup

/-- Every module binding is keyed by its label (root modules are stored
under their bare file name, which is also their label). -/
def ModKeyEqLabel (m : List (String × Node)) : Prop :=
  ∀ e ∈ m, isModuleB e.2 = true → e.1 = labelN e.2

/-- The map binds `n` to a root-level module of root `root`. -/
def ModuleAt (m : List (String × Node)) (n root : String) : Prop :=
  ∃ ch, getKV m n = some (Node.module n ch (root ++ "/" ++ n))

/-- The two basic map invariants maintained by the tree builder. -/
def MapInv (m : List (String × Node)) : Prop := KeysNoDup m ∧ ModKeyEqLabel m

/-- Phase-two invariant: the basics plus "key `n` holds a root-level
module of `root`". -/
def MapInvAt (n root : String) (m : List (String × Node)) : Prop :=
  MapInv m ∧ ModuleAt m n root

theorem lexCmp_total : ∀ as bs, lexCmp as bs ≤ 0 ∨ lexCmp bs as ≤ 0
  | [], [] => Or.inl (by simp [lexCmp])
  | [], _ :: _ => Or.inl (by simp [lexCmp])
  | _ :: _, [] => Or.inr (by simp [lexCmp])
  | a :: as, b :: bs => by
    rcases Nat.lt_trichotomy a.toNat b.toNat with h | h | h
    · exact Or.inl (by simp [lexCmp, h])
    · have h1 : ¬ a.toNat < b.toNat := by omega
      have h2 : ¬ b.toNat < a.toNat := by omega
      rcases lexCmp_total as bs with ih | ih
      · exact Or.inl (by simp [lexCmp, h1, h2, ih])
      · exact Or.inr (by simp [lexCmp, h1, h2, ih])
    · exact Or.inr (by simp [lexCmp, h])

theorem lexCmp_trans : ∀ as bs cs, lexCmp as bs ≤ 0 → lexCmp bs cs ≤ 0 → lexCmp as cs ≤ 0
  | [], _, [] => fun _ _ => by simp [lexCmp]
  | [], _, _ :: _ => fun _ _ => by simp [lexCmp]
  | a :: as, bs, [] => fun h1 h2 => by
    cases bs with
    | nil => simp [lexCmp] at h1
    | cons b bs => simp [lexCmp] at h2
  | a :: as, bs, c :: cs => fun h1 h2 => by
    cases bs with
    | nil => simp [lexCmp] at h1
    | cons b bs =>
      simp only [lexCmp] at h1 h2 ⊢
      rcases Nat.lt_trichotomy a.toNat b.toNat with hab | hab | hab
      · rcases Nat.lt_trichotomy b.toNat c.toNat with hbc | hbc | hbc
        · have : a.toNat < c.toNat := by omega
          simp [this]
        · have : a.toNat < c.toNat := by omega
          simp [this]
        · have h1' : ¬ b.toNat < c.toNat := by omega
          simp [h1', hbc] at h2
      · rcases Nat.lt_trichotomy b.toNat c.toNat with hbc | hbc | hbc
        · have : a.toNat < c.toNat := by omega
          simp [this]
        · have hac : a.toNat = c.toNat := by omega
          have h1' : ¬ a.toNat < b.toNat := by omega
          have h1'' : ¬ b.toNat < a.toNat := by omega
          have h2' : ¬ b.toNat < c.toNat := by omega
          have h2'' : ¬ c.toNat < b.toNat := by omega
          simp only [h1', h1'', if_false, if_true, if_neg, reduceIte] at h1
          simp only [h2', h2'', reduceIte] at h2
          have hac1 : ¬ a.toNat < c.toNat := by omega
          have hac2 : ¬ c.toNat < a.toNat := by omega
          simp [hac1, hac2, lexCmp_trans as bs cs h1 h2]
        · have h2' : ¬ b.toNat < c.toNat := by omega
          simp [h2', hbc] at h2
      · have h1' : ¬ a.toNat < b.toNat := by omega
        simp [h1', hab] at h1

theorem lc0_total : ∀ a b : String, lc0 a b ≤ 0 ∨ lc0 b a ≤ 0 := fun a b =>
  lexCmp_total a.data b.data

theorem lc0_trans : ∀ a b c : String, lc0 a b ≤ 0 → lc0 b c ≤ 0 → lc0 a c ≤ 0 := fun a b c =>
  lexCmp_trans a.data b.data c.data

theorem flagBefore_zero (cfg : ImportCfg) (d : Bool) (lines : List (List Char)) :
    flagBefore cfg d lines 0 = d := by
  simp [flagBefore, lastFlagLine]

theorem flagBefore_cons (cfg : ImportCfg) (d : Bool) (l : List Char)
    (ls : List (List Char)) (i : Nat) :
    flagBefore cfg d (l :: ls) (i + 1) =
      flagBefore cfg (if affectsFlagB l then decoMatch cfg (trimL l) else d) ls i := by
  unfold flagBefore lastFlagLine
  rw [List.take_succ_cons, List.reverse_cons, List.find?_append]
  cases h : List.find? affectsFlagB (ls.take i).reverse with
  | some x => simp [Option.or]
  | none =>
    cases ha : affectsFlagB l with
    | true => simp [Option.or, List.find?, ha]
    | false => simp [Option.or, List.find?, ha]

/-- A trimmed line starting with `@` can never match the definition
pattern. -/
theorem defMatch_none_of_at {cs : List Char} (h : startsChar cs '@' = true) :
    defMatch cs = none := by
  cases cs with
  | nil => simp [startsChar] at h
  | cons c rest =>
    simp only [startsChar, decide_eq_true_eq] at h
    subst h
    simp [defMatch, stripL, List.isPrefixOf, bind, Option.bind]

/-- A line not starting with `@` never matches the decorator test. -/
theorem decoMatch_eq_false {cfg : ImportCfg} {cs : List Char}
    (h : startsChar cs '@' = false) : decoMatch cfg cs = false := by
  cases cs with
  | nil => simp [decoMatch, List.isPrefixOf]
  | cons c rest =>
    have hne : c ≠ '@' := by simpa [startsChar] using h
    simp [decoMatch, List.isPrefixOf, hne, Ne.symm hne]

/-- Membership characterization of the scanning loop: a task item is
emitted exactly for the definition lines whose name has the `task_`
prefix or whose looked-back pending flag is set. -/
theorem scanTasks_mem_iff (cfg : ImportCfg) (fp : String) :
    ∀ (ls : List (List Char)) (i0 : Nat) (d : Bool) (t : TaskItem),
      t ∈ scanTasks cfg fp i0 d ls ↔
        ∃ k, k < ls.length ∧ ∃ name,
          defMatch (trimL (ls.getD k [])) = some name ∧
          t = { label := ⟨name⟩, filePath := fp, lineNumber := i0 + k + 1 } ∧
          ("task_".data.isPrefixOf name = true ∨ flagBefore cfg d ls k = true)
  | [], i0, d, t => by simp [scanTasks]
  | l :: ls, i0, d, t => by
    by_cases hat : startsChar (trimL l) '@' = true
    · rw [show scanTasks cfg fp i0 d (l :: ls)
            = scanTasks cfg fp (i0 + 1) (decoMatch cfg (trimL l)) ls by
          simp [scanTasks, hat]]
      rw [scanTasks_mem_iff cfg fp ls (i0 + 1) (decoMatch cfg (trimL l)) t]
      constructor
      · rintro ⟨k, hk, name, hdm, ht, hcond⟩
        refine ⟨k + 1, by simpa using hk, name, by simpa using hdm, by simpa [Nat.add_assoc, Nat.add_comm, Nat.add_left_comm] using ht, ?_⟩
        rw [flagBefore_cons]
        have haff : affectsFlagB l = true := by simp [affectsFlagB, hat]
        simpa [haff] using hcond
      · rintro ⟨k, hk, name, hdm, ht, hcond⟩
        cases k with
        | zero =>
          rw [List.getD_cons_zero] at hdm
          rw [defMatch_none_of_at hat] at hdm
          exact absurd hdm (by simp)
        | succ k =>
          refine ⟨k, by simpa using hk, name, by simpa using hdm, by simpa [Nat.add_assoc, Nat.add_comm, Nat.add_left_comm] using ht, ?_⟩
          rw [flagBefore_cons] at hcond
          have haff : affectsFlagB l = true := by simp [affectsFlagB, hat]
          simpa [haff] using hcond
    · replace hat : startsChar (trimL l) '@' = false := by
        simpa using hat
      cases hdm0 : defMatch (trimL l) with
      | some name0 =>
        rw [show scanTasks cfg fp i0 d (l :: ls)
              = (if "task_".data.isPrefixOf name0 || d then
                  [{ label := ⟨name0⟩, filePath := fp, lineNumber := i0 + 1 }]
                else []) ++ scanTasks cfg fp (i0 + 1) false ls by
            simp [scanTasks, hat, hdm0]]
        rw [List.mem_append]
        rw [scanTasks_mem_iff cfg fp ls (i0 + 1) false t]
        constructor
        · rintro (hmem | ⟨k, hk, name, hdm, ht, hcond⟩)
          · by_cases hc : ("task_".data.isPrefixOf name0 || d) = true
            · rw [if_pos hc] at hmem
              simp only [List.mem_singleton] at hmem
              refine ⟨0, by simp, name0, by simpa using hdm0, by simpa using hmem, ?_⟩
              rw [flagBefore_zero]
              simpa using hc
            · rw [if_neg hc] at hmem
              simp at hmem
          · refine ⟨k + 1, by simpa using hk, name, by simpa using hdm, by simpa [Nat.add_assoc, Nat.add_comm, Nat.add_left_comm] using ht, ?_⟩
            rw [flagBefore_cons]
            have haff : affectsFlagB l = true := by simp [affectsFlagB, hdm0]
            rcases hcond with hc | hc
            · exact Or.inl hc
            · rw [if_pos haff, decoMatch_eq_false hat]
              exact Or.inr hc
        · rintro ⟨k, hk, name, hdm, ht, hcond⟩
          cases k with
          | zero =>
            rw [List.getD_cons_zero, hdm0, Option.some_inj] at hdm
            subst hdm
            rw [flagBefore_zero] at hcond
            refine Or.inl ?_
            have hc : ("task_".data.isPrefixOf name0 || d) = true := by
              rcases hcond with hc | hc
              · simp [hc]
              · simp [hc]
            rw [if_pos hc]
            simpa using ht
          | succ k =>
            refine Or.inr ⟨k, by simpa using hk, name, by simpa using hdm, by simpa [Nat.add_assoc, Nat.add_comm, Nat.add_left_comm] using ht, ?_⟩
            rw [flagBefore_cons] at hcond
            have haff : affectsFlagB l = true := by simp [affectsFlagB, hdm0]
            rcases hcond with hc | hc
            · exact Or.inl hc
            · rw [if_pos haff, decoMatch_eq_false hat] at hc
              exact Or.inr hc
      | none =>
        rw [show scanTasks cfg fp i0 d (l :: ls) = scanTasks cfg fp (i0 + 1) d ls by
            simp [scanTasks, hat, hdm0]]
        rw [scanTasks_mem_iff cfg fp ls (i0 + 1) d t]
        have haff : affectsFlagB l = false := by simp [affectsFlagB, hat, hdm0]
        constructor
        · rintro ⟨k, hk, name, hdm, ht, hcond⟩
          refine ⟨k + 1, by simpa using hk, name, by simpa using hdm, by simpa [Nat.add_assoc, Nat.add_comm, Nat.add_left_comm] using ht, ?_⟩
          rw [flagBefore_cons, if_neg (by simp [haff])]
          exact hcond
        · rintro ⟨k, hk, name, hdm, ht, hcond⟩
          cases k with
          | zero =>
            rw [List.getD_cons_zero, hdm0] at hdm
            exact absurd hdm (by simp)
          | succ k =>
            refine ⟨k, by simpa using hk, name, by simpa using hdm, by simpa [Nat.add_assoc, Nat.add_comm, Nat.add_left_comm] using ht, ?_⟩
            rw [flagBefore_cons, if_neg (by simp [haff])] at hcond
            exact hcond

/-- Membership in the extractor's output: sorting permutes, so membership
is that of the scanning loop. -/
theorem mem_findTaskFunctions_iff (lc : String → String → Int) (fp : String)
    (content : String) (t : TaskItem) :
    t ∈ findTaskFunctions lc fp content ↔
      t ∈ scanTasks (importCfg content.data) fp 0 false (splitLines content.data) := by
  unfold findTaskFunctions
  exact (List.perm_insertionSort _ _).mem_iff

/-- With neither import detected, no line matches the decorator test, so
the looked-back flag (from initial value `false`) is always false. -/
theorem flagBefore_false_of_no_imports {cfg : ImportCfg}
    (h1 : cfg.hasTaskImport = false) (h2 : cfg.hasPytaskImport = false)
    (lines : List (List Char)) (k : Nat) : flagBefore cfg false lines k = false := by
  unfold flagBefore
  cases h : lastFlagLine (lines.take k) with
  | none => rfl
  | some l => simp [decoMatch, h1, h2]

/-- C1, counterexample to the claim as stated: in
`from pytask import task` / `@task` / `# note` / `def f(): ...`
the definition of `f` is immediately preceded by a comment line, not by a
decorator line, yet the extractor classifies `f` as a task, because the
pending-decorator flag survives lines that are neither decorators nor
definitions. -/
theorem c1_immediately_preceded_counterexample :
    c1ClaimHolds "p" "from pytask import task\n@task\n# note\ndef f():\n    pass" = false := by
  decide

/-- C1 (amended): a definition line is classified as a task exactly when
its function name starts with `task_`, or the most recent line above it
that is a decorator line or a definition line is a decorator line passing
the decorator test: bare `@` + alias equality, enabled by the from-style
statement; or `@` + module alias + `.task` head, enabled by the module
statement. In particular, with neither governing statement present, only the
`task_` prefix classifies (removing the import disables the decorator). -/
theorem c1_extractor_classification (lc : String → String → Int)
    (fp content : String) (t : TaskItem) :
    (t ∈ findTaskFunctions lc fp content ↔
      ∃ k, k < (splitLines content.data).length ∧ ∃ name,
        defMatch (trimL ((splitLines content.data).getD k [])) = some name ∧
        t = { label := ⟨name⟩, filePath := fp, lineNumber := k + 1 } ∧
        ("task_".data.isPrefixOf name = true ∨
          flagBefore (importCfg content.data) false (splitLines content.data) k = true)) ∧
    ((importCfg content.data).hasTaskImport = false →
      (importCfg content.data).hasPytaskImport = false →
      (t ∈ findTaskFunctions lc fp content ↔
        ∃ k, k < (splitLines content.data).length ∧ ∃ name,
          defMatch (trimL ((splitLines content.data).getD k [])) = some name ∧
          t = { label := ⟨name⟩, filePath := fp, lineNumber := k + 1 } ∧
          "task_".data.isPrefixOf name = true)) := by
  have hmem := (mem_findTaskFunctions_iff lc fp content t).trans
    (scanTasks_mem_iff (importCfg content.data) fp (splitLines content.data) 0 false t)
  simp only [Nat.zero_add] at hmem
  constructor
  · exact hmem
  · intro h1 h2
    rw [hmem]
    constructor
    · rintro ⟨k, hk, name, hdm, ht, hcond⟩
      refine ⟨k, hk, name, hdm, ht, ?_⟩
      rcases hcond with hc | hc
      · exact hc
      · rw [flagBefore_false_of_no_imports h1 h2] at hc
        exact absurd hc (by simp)
    · rintro ⟨k, hk, name, hdm, ht, hc⟩
      exact ⟨k, hk, name, hdm, ht, Or.inl hc⟩

/-- C1 witness: on a file with no imports, `task_a` is classified via the
prefix rule, through the amended classification theorem. -/
theorem c1_extractor_classification_witness :
    ({ label := "task_a", filePath := "p", lineNumber := 1 } : TaskItem) ∈
      findTaskFunctions lc0 "p" "def task_a():\n    pass" :=
  ((c1_extractor_classification lc0 "p" "def task_a():\n    pass"
      { label := "task_a", filePath := "p", lineNumber := 1 }).2
    (by decide) (by decide)).mpr
    ⟨0, by decide, "task_a".data, by decide, by decide, by decide⟩

/-! ## Claim C4 -/

/-- C4: for every file content, the extractor's returned task sequence is
sorted by task name under the locale comparator (assumed total and
transitive, as ICU collation is). -/
theorem c4_extractor_output_sorted (lc : String → String → Int)
    (hTot : ∀ a b, lc a b ≤ 0 ∨ lc b a ≤ 0)
    (hTrans : ∀ a b c, lc a b ≤ 0 → lc b c ≤ 0 → lc a c ≤ 0)
    (fp content : String) :
    List.Sorted (fun a b : TaskItem => lc a.label b.label ≤ 0)
      (findTaskFunctions lc fp content) := by
  unfold findTaskFunctions
  haveI : IsTotal TaskItem (fun a b => lc a.label b.label ≤ 0) := ⟨fun a b => hTot _ _⟩
  haveI : IsTrans TaskItem (fun a b => lc a.label b.label ≤ 0) := ⟨fun a b c => hTrans _ _ _⟩
  exact List.sorted_insertionSort _ _

/-- C4 witness at the concrete collator and a concrete two-task file. -/
theorem c4_extractor_output_sorted_witness :
    List.Sorted (fun a b : TaskItem => lc0 a.label b.label ≤ 0)
      (findTaskFunctions lc0 "p" "def task_b():\n    pass\ndef task_a():\n    pass") :=
  c4_extractor_output_sorted lc0 lc0_total lc0_trans "p"
    "def task_b():\n    pass\ndef task_a():\n    pass"

/-! ## Claim C6 -/

/-- C6: on every decorator line the pending flag is re-evaluated afresh
(the previous flag value `d` does not appear on the right-hand side), and
consequently `@other` then `@task` above `def f` marks `f` while `@task`
then `@other` does not. -/
theorem c6_decorator_flag_reevaluated :
    (∀ (cfg : ImportCfg) (fp : String) (i : Nat) (d : Bool) (l : List Char)
        (ls : List (List Char)), startsChar (trimL l) '@' = true →
        scanTasks cfg fp i d (l :: ls) =
          scanTasks cfg fp (i + 1) (decoMatch cfg (trimL l)) ls) ∧
    (findTaskFunctions lc0 "p"
        "from pytask import task\n@other\n@task\ndef f():\n    pass").map
      (fun t => t.label) = ["f"] ∧
    findTaskFunctions lc0 "p"
        "from pytask import task\n@task\n@other\ndef f():\n    pass" = [] := by
  refine ⟨fun cfg fp i d l ls h => by simp [scanTasks, h], by decide, by decide⟩

/-- C6 witness: the general re-evaluation equation applied on a concrete
decorator line, with both possible previous flag values. -/
theorem c6_decorator_flag_reevaluated_witness :
    startsChar (trimL "@x".data) '@' = true ∧
    scanTasks (importCfg []) "p" 0 true ["@x".data] =
      scanTasks (importCfg []) "p" 1 (decoMatch (importCfg []) (trimL "@x".data)) [] :=
  ⟨by decide, c6_decorator_flag_reevaluated.1 (importCfg []) "p" 0 true "@x".data []
    (by decide)⟩

/-! ## Claim C7 -/

/-- Bounds for the simple scanning loop. -/
theorem scanTasksSimple_bounds :
    ∀ (ls : List (List Char)) (i0 : Nat) (td : TaskDefinition),
      td ∈ scanTasksSimple i0 ls →
        i0 + 1 ≤ td.lineNumber ∧ td.lineNumber ≤ i0 + ls.length
  | [], i0, td => by simp [scanTasksSimple]
  | l :: ls, i0, td => by
    intro hmem
    rw [scanTasksSimple, List.mem_append] at hmem
    rcases hmem with hmem | hmem
    · cases h : searchMatch defTaskMatchAt l with
      | none => rw [h] at hmem; simp at hmem
      | some name =>
        rw [h] at hmem
        simp only [List.mem_singleton] at hmem
        subst hmem
        simp only [List.length_cons]
        omega
    · have := scanTasksSimple_bounds ls (i0 + 1) td hmem
      simp only [List.length_cons]
      omega

/-- C7: every emitted task record of either extractor has a 1-based line
number within the bounds of the scanned content's line count. -/
theorem c7_line_numbers_in_bounds (lc : String → String → Int) (fp content : String) :
    (∀ t ∈ findTaskFunctions lc fp content,
      1 ≤ t.lineNumber ∧ t.lineNumber ≤ (splitLines content.data).length) ∧
    (∀ td ∈ findTaskFunctionsSimple content,
      1 ≤ td.lineNumber ∧ td.lineNumber ≤ (splitLines content.data).length) := by
  constructor
  · intro t hmem
    rw [mem_findTaskFunctions_iff, scanTasks_mem_iff] at hmem
    obtain ⟨k, hk, name, _, ht, _⟩ := hmem
    subst ht
    simp only
    omega
  · intro td hmem
    have := scanTasksSimple_bounds (splitLines content.data) 0 td hmem
    omega

/-- C7 witness: the bounds at a concrete extraction. -/
theorem c7_line_numbers_in_bounds_witness :
    1 ≤ ({ label := "task_a", filePath := "p", lineNumber := 1 } : TaskItem).lineNumber ∧
    ({ label := "task_a", filePath := "p", lineNumber := 1 } : TaskItem).lineNumber ≤
      (splitLines ("def task_a():\n    pass" : String).data).length :=
  (c7_line_numbers_in_bounds lc0 "p" "def task_a():\n    pass").1
    { label := "task_a", filePath := "p", lineNumber := 1 } (by decide)

/-! ## Claim C8 -/

/-- C8: the extractor is a total function of the content (it is defined by
structural recursion over the split lines, for arbitrary, also malformed,
text) and returns the empty list exactly when no line qualifies — there
is no error outcome. -/
theorem c8_extractor_empty_iff (lc : String → String → Int) (fp content : String) :
    findTaskFunctions lc fp content = [] ↔
      ∀ k, k < (splitLines content.data).length →
        ∀ name, defMatch (trimL ((splitLines content.data).getD k [])) = some name →
          ("task_".data.isPrefixOf name = false ∧
            flagBefore (importCfg content.data) false (splitLines content.data) k = false) := by
  constructor
  · intro hnil k hk name hdm
    by_contra hcontra
    rw [not_and_or] at hcontra
    have hcond : "task_".data.isPrefixOf name = true ∨
        flagBefore (importCfg content.data) false (splitLines content.data) k = true := by
      rcases hcontra with hc | hc
      · exact Or.inl (by simpa using hc)
      · exact Or.inr (by simpa using hc)
    have hmem : ({ label := ⟨name⟩, filePath := fp, lineNumber := 0 + k + 1 } : TaskItem) ∈
        findTaskFunctions lc fp content := by
      rw [mem_findTaskFunctions_iff, scanTasks_mem_iff]
      exact ⟨k, hk, name, hdm, rfl, hcond⟩
    rw [hnil] at hmem
    simp at hmem
  · intro hall
    rw [List.eq_nil_iff_forall_not_mem]
    intro t hmem
    rw [mem_findTaskFunctions_iff, scanTasks_mem_iff] at hmem
    obtain ⟨k, hk, name, hdm, _, hcond⟩ := hmem
    have := hall k hk name hdm
    rcases hcond with hc | hc
    · rw [this.1] at hc; exact absurd hc (by simp)
    · rw [this.2] at hc; exact absurd hc (by simp)

/-- C8 witness: malformed, partially-invalid text yields the empty list,
through the emptiness characterization. -/
theorem c8_extractor_empty_iff_witness :
    findTaskFunctions lc0 "p" "x = $$$ ???\n@@@\n(((\ndef:\n" = [] :=
  (c8_extractor_empty_iff lc0 "p" "x = $$$ ???\n@@@\n(((\ndef:\n").mpr (by decide)

/-- Word characters are never JS whitespace. -/
theorem jsSpace_eq_false_of_wordChar {c : Char} (h : wordChar c = true) :
    jsSpace c = false := by
  by_contra hsp
  rw [Bool.not_eq_false] at hsp
  simp only [jsSpace, Bool.or_eq_true, decide_eq_true_eq] at hsp
  rcases hsp with ((((h1 | h1) | h1) | h1) | h1) | h1 <;> subst h1 <;> simp [wordChar] at h

theorem stripL_some : ∀ {p cs r : List Char}, stripL p cs = some r → cs = p ++ r
  | [], cs, r, h => by simpa [stripL] using Option.some_inj.mp h
  | p :: ps, [], r, h => by simp [stripL] at h
  | p :: ps, c :: cs, r, h => by
    by_cases hpc : p = c
    · rw [stripL, if_pos hpc] at h
      rw [List.cons_append, ← hpc, stripL_some h]
    · rw [stripL, if_neg hpc] at h
      exact absurd h (by simp)

theorem stripL_append : ∀ (p t : List Char), stripL p (p ++ t) = some t
  | [], t => rfl
  | p :: ps, t => by
    rw [List.cons_append, stripL, if_pos rfl]
    exact stripL_append ps t

/-- If every element of `s` satisfies `p` and `t` does not start with one,
`dropWhile p` removes exactly `s`. -/
theorem dropWhile_append_exact {p : Char → Bool} :
    ∀ {s t : List Char}, (∀ c ∈ s, p c = true) → HeadNot p t →
      List.dropWhile p (s ++ t) = t
  | [], t, _, ht => by
    cases t with
    | nil => simp
    | cons c t' => simp [List.dropWhile_cons, ht c t' rfl]
  | c :: s, t, hall, ht => by
    rw [List.cons_append, List.dropWhile_cons, hall c (by simp)]
    exact dropWhile_append_exact (fun d hd => hall d (List.mem_cons_of_mem c hd)) ht

theorem takeWhile_append_exact {p : Char → Bool} :
    ∀ {s t : List Char}, (∀ c ∈ s, p c = true) → HeadNot p t →
      List.takeWhile p (s ++ t) = s
  | [], t, _, ht => by
    cases t with
    | nil => simp
    | cons c t' => simp [List.takeWhile_cons, ht c t' rfl]
  | c :: s, t, hall, ht => by
    rw [List.cons_append, List.takeWhile_cons, hall c (by simp)]
    simp only [if_true, List.cons.injEq, true_and]
    exact takeWhile_append_exact (fun d hd => hall d (List.mem_cons_of_mem c hd)) ht

/-- Dropping as many elements as the matching run leaves the non-matching
suffix. -/
theorem drop_length_takeWhile (p : Char → Bool) (l : List Char) :
    l.drop (l.takeWhile p).length = l.dropWhile p := by
  rw [show l.drop (l.takeWhile p).length
      = (l.takeWhile p ++ l.dropWhile p).drop (l.takeWhile p).length from by
    rw [List.takeWhile_append_dropWhile]]
  rw [List.drop_left]

theorem dropSpaces1_some {cs r : List Char} (h : dropSpaces1 cs = some r) :
    ∃ s, cs = s ++ r ∧ SpacesRun s := by
  cases cs with
  | nil => simp [dropSpaces1] at h
  | cons c rest =>
    simp only [dropSpaces1] at h
    by_cases hc : jsSpace c = true
    · rw [if_pos hc, Option.some_inj] at h
      refine ⟨c :: rest.takeWhile jsSpace, ?_, by simp, ?_⟩
      · rw [← h]
        simp [List.takeWhile_append_dropWhile]
      · intro d hd
        rcases List.mem_cons.mp hd with rfl | hd
        · exact hc
        · exact List.mem_takeWhile_imp hd
    · rw [if_neg hc] at h
      exact absurd h (by simp)

theorem dropSpaces1_exact {s t : List Char} (hs : SpacesRun s) (ht : HeadNot jsSpace t) :
    dropSpaces1 (s ++ t) = some t := by
  obtain ⟨hne, hall⟩ := hs
  cases s with
  | nil => exact absurd rfl hne
  | cons c s' =>
    rw [List.cons_append]
    simp only [dropSpaces1]
    rw [if_pos (hall c (by simp))]
    rw [dropWhile_append_exact (fun d hd => hall d (List.mem_cons_of_mem c hd)) ht]

theorem takeWord1_some {cs : List Char} {w r : List Char}
    (h : takeWord1 cs = some (w, r)) : cs = w ++ r ∧ WordRun w := by
  unfold takeWord1 at h
  by_cases he : (cs.takeWhile wordChar).isEmpty = true
  · rw [if_pos he] at h
    exact absurd h (by simp)
  · rw [if_neg he, Option.some_inj, Prod.mk.injEq] at h
    obtain ⟨hw, hr⟩ := h
    subst hw
    refine ⟨?_, by simpa [List.isEmpty_iff] using he, fun c hc => List.mem_takeWhile_imp hc⟩
    rw [← hr, drop_length_takeWhile, List.takeWhile_append_dropWhile]

theorem takeWord1_exact {w t : List Char} (hw : WordRun w) (ht : HeadNot wordChar t) :
    takeWord1 (w ++ t) = some (w, t) := by
  obtain ⟨hne, hall⟩ := hw
  unfold takeWord1
  rw [takeWhile_append_exact hall ht]
  have hemp : w.isEmpty = false := by simpa [List.isEmpty_iff] using hne
  rw [if_neg (by simp [hemp]), List.drop_left]

/-- Soundness of the transliterated matcher: a successful anchored match
yields a decomposition witnessing the declarative statement pattern. -/
theorem matchImportPytaskAt_sound {cs : List Char} {res : Option (List Char)}
    (h : matchImportPytaskAt cs = some res) : ImportPytaskStmtAt cs := by
  unfold matchImportPytaskAt at h
  split at h
  · exact absurd h (by simp)
  next r1 h1 =>
    split at h
    · exact absurd h (by simp)
    next r2 h2 =>
      split at h
      · exact absurd h (by simp)
      next r3 h3 =>
        have hcs : cs = "import".data ++ r1 := stripL_some h1
        obtain ⟨s1, hr1, hs1⟩ := dropSpaces1_some h2
        have hr2 : r2 = "pytask".data ++ r3 := stripL_some h3
        split at h
        · next w r4 h4 =>
          by_cases h5 : wsToEol r4 = true
          · -- the as clause matched and reached an end of line
            unfold asClause at h4
            split at h4
            · exact absurd h4 (by simp)
            next r5 h6 =>
              split at h4
              · exact absurd h4 (by simp)
              next r6 h7 =>
                split at h4
                · exact absurd h4 (by simp)
                next r7 h8 =>
                  obtain ⟨s2, hr3, hs2⟩ := dropSpaces1_some h6
                  have hr5 : r5 = "as".data ++ r6 := stripL_some h7
                  obtain ⟨s3, hr6, hs3⟩ := dropSpaces1_some h8
                  obtain ⟨hr7, hw⟩ := takeWord1_some h4
                  refine ⟨s1, s2 ++ "as".data ++ s3 ++ w, r4,
                    ?_, hs1, Or.inr ⟨s2, s3, w, by simp [List.append_assoc], hs2, hs3, hw⟩, h5⟩
                  rw [hcs, hr1, hr2, hr3, hr5, hr6, hr7]
                  simp [List.append_assoc]
          · -- backtracked to the alias-free form
            rw [if_neg h5] at h
            by_cases h6 : wsToEol r3 = true
            · refine ⟨s1, [], r3, ?_, hs1, Or.inl rfl, h6⟩
              rw [hcs, hr1, hr2]
              simp [List.append_assoc]
            · rw [if_neg h6] at h
              exact absurd h (by simp)
        · by_cases h6 : wsToEol r3 = true
          · refine ⟨s1, [], r3, ?_, hs1, Or.inl rfl, h6⟩
            rw [hcs, hr1, hr2]
            simp [List.append_assoc]
          · rw [if_neg h6] at h
            exact absurd h (by simp)

/-- A text consisting of whitespace up to an end of line never starts with
a word character. -/
theorem headNot_wordChar_of_wsToEol {t : List Char} (h : wsToEol t = true) :
    HeadNot wordChar t := by
  intro c t' ht
  subst ht
  unfold wsToEol at h
  by_cases hc : (c = '\n' || c = '\r') = true
  · simp only [Bool.or_eq_true, decide_eq_true_eq] at hc
    rcases hc with rfl | rfl <;> decide
  · rw [if_neg hc, Bool.and_eq_true] at h
    by_contra hw
    rw [Bool.not_eq_false] at hw
    rw [jsSpace_eq_false_of_wordChar hw] at h
    exact absurd h.1 (by simp)

/-- Completeness of the transliterated matcher: any declarative match at
the start of `cs` makes the matcher succeed (with some capture). -/
theorem matchImportPytaskAt_complete {cs : List Char} (h : ImportPytaskStmtAt cs) :
    (matchImportPytaskAt cs).isSome = true := by
  obtain ⟨s1, asPart, rest, hcs, hs1, hAs, hrest⟩ := h
  subst hcs
  unfold matchImportPytaskAt
  rcases hAs with rfl | ⟨s2, s3, w, hAs, hs2, hs3, hw⟩
  · -- no as clause: after `pytask` comes whitespace-to-eol
    have hhead : HeadNot jsSpace ("pytask".data ++ rest) := by
      intro c t' ht
      have hc : c = 'p' := by
        have := congrArg (fun l => l.headD ' ') ht
        simpa using this.symm
      subst hc
      decide
    rw [show "import".data ++ s1 ++ "pytask".data ++ [] ++ rest
        = "import".data ++ (s1 ++ ("pytask".data ++ rest)) by simp [List.append_assoc]]
    simp only [stripL_append, dropSpaces1_exact hs1 hhead]
    cases h4 : asClause rest with
    | some pr =>
      obtain ⟨w, r4⟩ := pr
      by_cases h5 : wsToEol r4 = true
      · simp [h5]
      · simp [h5, hrest]
    | none => simp [hrest]
  · -- with as clause
    subst hAs
    have hheadp : HeadNot jsSpace
        ("pytask".data ++ (s2 ++ ("as".data ++ (s3 ++ (w ++ rest))))) := by
      intro c t' ht
      have hc : c = 'p' := by
        have := congrArg (fun l => l.headD ' ') ht
        simpa using this.symm
      subst hc
      decide
    rw [show "import".data ++ s1 ++ "pytask".data ++ (s2 ++ "as".data ++ s3 ++ w) ++ rest
        = "import".data ++ (s1 ++ ("pytask".data ++ (s2 ++ ("as".data ++ (s3 ++ (w ++ rest))))))
      by simp [List.append_assoc]]
    have hheada : HeadNot jsSpace ("as".data ++ (s3 ++ (w ++ rest))) := by
      intro c t' ht
      have hc : c = 'a' := by
        have := congrArg (fun l => l.headD ' ') ht
        simpa using this.symm
      subst hc
      decide
    have hheadw : HeadNot jsSpace (w ++ rest) := by
      intro c t' ht
      obtain ⟨hne, hall⟩ := hw
      cases w with
      | nil => exact absurd rfl hne
      | cons cw w' =>
        rw [List.cons_append] at ht
        injection ht with hh1 hh2
        subst hh1
        exact jsSpace_eq_false_of_wordChar (hall cw (by simp))
    simp only [stripL_append, dropSpaces1_exact hs1 hheadp]
    unfold asClause
    simp only [dropSpaces1_exact hs2 hheada, stripL_append,
      dropSpaces1_exact hs3 hheadw,
      takeWord1_exact hw (headNot_wordChar_of_wsToEol hrest)]
    simp [hrest]

/-- A failing unanchored search fails at every start index. -/
theorem searchMatch_none {α : Type} {f : List Char → Option α} :
    ∀ {cs : List Char}, searchMatch f cs = none → ∀ i, f (cs.drop i) = none
  | [], h, i => by simpa [List.drop_nil] using h
  | c :: rest, h, 0 => by
    unfold searchMatch at h
    split at h
    · exact absurd h (by simp)
    next hf => simpa using hf
  | c :: rest, h, i + 1 => by
    unfold searchMatch at h
    split at h
    · exact absurd h (by simp)
    next hf => exact searchMatch_none h i

/-- A successful unanchored search succeeds at some start index. -/
theorem searchMatch_some {α : Type} {f : List Char → Option α} {r : α} :
    ∀ {cs : List Char}, searchMatch f cs = some r → ∃ i, f (cs.drop i) = some r
  | [], h => ⟨0, by simpa using h⟩
  | c :: rest, h => by
    unfold searchMatch at h
    split at h
    next r' hf => exact ⟨0, by rw [List.drop_zero, hf, h]⟩
    next hf =>
      obtain ⟨i, hi⟩ := searchMatch_some h
      exact ⟨i + 1, by simpa using hi⟩

/-- C9: if no occurrence of `import pytask` in the content forms a
complete statement (literal, whitespace, optional `as` alias, then only
whitespace up to an end of line — i.e. every occurrence is followed by
additional tokens), then qualified decorator detection is not enabled:
`hasPytaskImport` is false and the decorator test degenerates to the
bare-alias equality alone. -/
theorem c9_trailing_tokens_disable_module_import (content : String)
    (h : ∀ i, ¬ ImportPytaskStmtAt (content.data.drop i)) :
    (importCfg content.data).hasPytaskImport = false ∧
    ∀ l, decoMatch (importCfg content.data) l =
      ((importCfg content.data).hasTaskImport &&
        (l == '@' :: (importCfg content.data).taskAlias)) := by
  have hnone : searchMatch matchImportPytaskAt content.data = none := by
    cases hs : searchMatch matchImportPytaskAt content.data with
    | none => rfl
    | some res =>
      obtain ⟨i, hi⟩ := searchMatch_some hs
      exact absurd (matchImportPytaskAt_sound hi) (h i)
  have hfalse : (importCfg content.data).hasPytaskImport = false := by
    simp [importCfg, hnone]
  refine ⟨hfalse, fun l => ?_⟩
  simp [decoMatch, hfalse]

/-- C9 witness: `import pytask, os` does not enable qualified decorator
detection; the hypothesis is discharged via completeness of the matcher
against its failing search. -/
theorem c9_trailing_tokens_witness :
    (importCfg
      ("import pytask, os\n@pytask.task\ndef f():\n    pass" : String).data).hasPytaskImport
      = false :=
  (c9_trailing_tokens_disable_module_import
    "import pytask, os\n@pytask.task\ndef f():\n    pass"
    (fun i hstmt => by
      have hsome := matchImportPytaskAt_complete hstmt
      have hnone := @searchMatch_none _ matchImportPytaskAt
        ("import pytask, os\n@pytask.task\ndef f():\n    pass" : String).data
        (by decide) i
      rw [hnone] at hsome
      exact absurd hsome (by simp))).1

/-! ## Claims C2 and C3: concrete tree-builder evaluations -/

/-- C2: `buildFileTree` has no try/catch around `readFileSync`
(extension.ts line 168), so a failing read of one enumerated file aborts
the whole build (the promise rejects) instead of skipping that file: with
the read of `r/task_a.py` failing, the build returns the thrown error and
`r/task_b.py` is never delivered; with all reads succeeding, both modules
are delivered. -/
theorem c2_read_failure_aborts_build :
    buildFileTree lc0
      (fun p => if p = "r/task_a.py" then none else some "def task_x():\n    pass")
      (some [("r", [⟨[], "task_a.py"⟩, ⟨[], "task_b.py"⟩])]) = Except.error () ∧
    buildFileTree lc0 (fun _ => some "def task_x():\n    pass")
      (some [("r", [⟨[], "task_a.py"⟩, ⟨[], "task_b.py"⟩])]) =
      Except.ok
        [Node.module "task_a.py" [⟨"task_x", "r/task_a.py", 1⟩] "r/task_a.py",
         Node.module "task_b.py" [⟨"task_x", "r/task_b.py", 1⟩] "r/task_b.py"] :=
  ⟨rfl, rfl⟩

/-- C3: the folder loop stores sub-folders beyond the first path segment
into temporary maps that are discarded, and the module-attachment lookup
`rootItems.get(dirPath)` only finds single-segment keys; hence a file
whose relative directory has two segments (`a/b/task_m.py`) vanishes from
the built tree (only an empty folder `a` remains), while a depth-one file
is attached correctly. -/
theorem c3_nested_module_dropped :
    buildFileTree lc0 (fun _ => some "def task_f():\n    pass")
      (some [("r", [⟨["a", "b"], "task_m.py"⟩])]) =
      Except.ok [Node.folder "a" [] "r/a"] ∧
    buildFileTree lc0 (fun _ => some "def task_f():\n    pass")
      (some [("r", [⟨["a"], "task_m.py"⟩])]) =
      Except.ok
        [Node.folder "a"
          [Node.module "task_m.py" [⟨"task_f", "r/a/task_m.py", 1⟩] "r/a/task_m.py"]
          "r/a"] :=
  ⟨rfl, rfl⟩

theorem nodeLe_total (lc : String → String → Int)
    (hTot : ∀ a b, lc a b ≤ 0 ∨ lc b a ≤ 0) :
    ∀ a b : Node, nodeLe lc a b ∨ nodeLe lc b a := by
  intro a b
  cases ha : isFolderB a <;> cases hb : isFolderB b <;>
    simp [nodeLe, nodeCmpI, ha, hb] <;>
    exact hTot _ _

theorem nodeLe_trans (lc : String → String → Int)
    (hTrans : ∀ a b c, lc a b ≤ 0 → lc b c ≤ 0 → lc a c ≤ 0) :
    ∀ a b c : Node, nodeLe lc a b → nodeLe lc b c → nodeLe lc a c := by
  intro a b c h1 h2
  cases ha : isFolderB a <;> cases hb : isFolderB b <;> cases hc : isFolderB c <;>
    simp [nodeLe, nodeCmpI, ha, hb, hc] at h1 h2 ⊢ <;>
    exact hTrans _ _ _ h1 h2

/-- Lemma: `sortNodes` is the elementwise recursion. -/
theorem sortNodes_eq_map (lc : String → String → Int) :
    ∀ ns : List Node, sortNodes lc ns = ns.map (sortNode lc)
  | [] => by simp [sortNodes]
  | n :: ns => by simp [sortNodes, sortNodes_eq_map lc ns]

/-- The recursion of `sortItems` into a node makes it recursively
sorted. -/
theorem sortNode_sorted (lc : String → String → Int)
    (hTot : ∀ a b, lc a b ≤ 0 ∨ lc b a ≤ 0)
    (hTrans : ∀ a b c, lc a b ≤ 0 → lc b c ≤ 0 → lc a c ≤ 0) :
    ∀ n : Node, NodeSorted lc (sortNode lc n) := by
  haveI : IsTotal Node (nodeLe lc) := ⟨nodeLe_total lc hTot⟩
  haveI : IsTrans Node (nodeLe lc) := ⟨nodeLe_trans lc hTrans⟩
  haveI : IsTotal TaskItem (taskLe lc) := ⟨fun a b => hTot _ _⟩
  haveI : IsTrans TaskItem (taskLe lc) := ⟨fun a b c => hTrans _ _ _⟩
  refine @sortNode.induct lc (fun n => NodeSorted lc (sortNode lc n))
    (fun ns => ∀ x ∈ ns, NodeSorted lc (sortNode lc x)) ?_ ?_ ?_ ?_
  · intro l cs p ih
    simp only [sortNode]
    refine NodeSorted.folder _ _ _ (List.sorted_insertionSort _ _) ?_
    intro c hc
    rw [List.mem_insertionSort, sortNodes_eq_map] at hc
    obtain ⟨x, hx, rfl⟩ := List.mem_map.mp hc
    exact ih x hx
  · intro l ts p
    simp only [sortNode]
    exact NodeSorted.module _ _ _ (List.sorted_insertionSort _ _)
  · simp
  · intro n ns ih1 ih2 x hx
    rcases List.mem_cons.mp hx with rfl | hx
    · exact ih1
    · exact ih2 x hx

/-- Lemma: `sortItems` produces a recursively sorted level. -/
theorem sortItems_treeSorted (lc : String → String → Int)
    (hTot : ∀ a b, lc a b ≤ 0 ∨ lc b a ≤ 0)
    (hTrans : ∀ a b c, lc a b ≤ 0 → lc b c ≤ 0 → lc a c ≤ 0)
    (ns : List Node) : TreeSorted lc (sortItems lc ns) := by
  haveI : IsTotal Node (nodeLe lc) := ⟨nodeLe_total lc hTot⟩
  haveI : IsTrans Node (nodeLe lc) := ⟨nodeLe_trans lc hTrans⟩
  constructor
  · exact List.sorted_insertionSort _ _
  · intro n hn
    unfold sortItems at hn
    rw [List.mem_insertionSort, sortNodes_eq_map] at hn
    obtain ⟨x, hx, rfl⟩ := List.mem_map.mp hn
    exact sortNode_sorted lc hTot hTrans x

/-- C5: every tree delivered by `buildFileTree` satisfies the ordering
rule at the root level and recursively at every folder's children and
every module's task children: folders precede modules and nodes of the
same kind are in locale-alphabetical label order (the comparator `nodeLe`
is exactly the source's `sortItems` comparator). -/
theorem c5_built_tree_recursively_sorted (lc : String → String → Int)
    (hTot : ∀ a b, lc a b ≤ 0 ∨ lc b a ≤ 0)
    (hTrans : ∀ a b c, lc a b ≤ 0 → lc b c ≤ 0 → lc a c ≤ 0)
    (fsys : String → Option String) (ws : Option (List (String × List RelFile)))
    (items : List Node) (hok : buildFileTree lc fsys ws = Except.ok items) :
    TreeSorted lc items := by
  unfold buildFileTree at hok
  split at hok
  · rw [Except.ok.injEq] at hok
    subst hok
    exact ⟨List.sorted_nil, by simp⟩
  · split at hok
    · exact absurd hok (by simp)
    · rw [Except.ok.injEq] at hok
      subst hok
      exact sortItems_treeSorted lc hTot hTrans _

/-- C5 witness: the rule at a concrete two-file workspace (one nested
file, one root file): folder before module, tasks sorted. -/
theorem c5_built_tree_recursively_sorted_witness :
    TreeSorted lc0
      [Node.folder "a"
        [Node.module "task_c.py" [⟨"task_f", "r/a/task_c.py", 1⟩] "r/a/task_c.py"] "r/a",
       Node.module "task_b.py" [⟨"task_f", "r/task_b.py", 1⟩] "r/task_b.py"] :=
  c5_built_tree_recursively_sorted lc0 lc0_total lc0_trans
    (fun _ => some "def task_f():\n    pass")
    (some [("r", [⟨[], "task_b.py"⟩, ⟨["a"], "task_c.py"⟩])]) _ rfl

theorem getKV_setKV_self (k : String) (v : Node) :
    ∀ m : List (String × Node), getKV (setKV m k v) k = some v
  | [] => by simp [getKV, setKV]
  | e :: m => by
    by_cases he : e.1 = k
    · simp [setKV, he, getKV]
    · rw [setKV, if_neg he, getKV, List.find?_cons_of_neg _ (by simpa using he)]
      exact getKV_setKV_self k v m

theorem getKV_setKV_other {k k' : String} (hne : k' ≠ k) (v : Node) :
    ∀ m : List (String × Node), getKV (setKV m k v) k' = getKV m k'
  | [] => by simp [getKV, setKV, Ne.symm hne]
  | e :: m => by
    by_cases he : e.1 = k
    · rw [setKV, if_pos he, getKV,
        List.find?_cons_of_neg _ (by simpa using Ne.symm hne), getKV,
        List.find?_cons_of_neg _ (by simp [he, Ne.symm hne])]
    · rw [setKV, if_neg he]
      by_cases he' : e.1 = k'
      · rw [getKV, List.find?_cons_of_pos _ (by simpa using he'), getKV,
          List.find?_cons_of_pos _ (by simpa using he')]
      · rw [getKV, List.find?_cons_of_neg _ (by simpa using he'), getKV,
          List.find?_cons_of_neg _ (by simpa using he')]
        exact getKV_setKV_other hne v m

theorem mem_keys_setKV {k' k : String} {v : Node} :
    ∀ {m : List (String × Node)},
      k' ∈ (setKV m k v).map Prod.fst → k' ∈ m.map Prod.fst ∨ k' = k
  | [], h => by
    simp [setKV] at h
    exact Or.inr h
  | e :: m, h => by
    by_cases he : e.1 = k
    · simp only [setKV, he, if_pos, reduceIte, List.map_cons, List.mem_cons] at h
      rcases h with rfl | h
      · exact Or.inr rfl
      · exact Or.inl (by simp [h])
    · simp only [setKV, he, if_false, reduceIte, List.map_cons, List.mem_cons] at h
      rcases h with rfl | h
      · exact Or.inl (by simp)
      · rcases mem_keys_setKV h with h | h
        · exact Or.inl (by simp [h])
        · exact Or.inr h

theorem keysNoDup_setKV {k : String} {v : Node} :
    ∀ {m : List (String × Node)}, KeysNoDup m → KeysNoDup (setKV m k v)
  | [], _ => by simp [KeysNoDup, setKV]
  | e :: m, hm => by
    rw [KeysNoDup, List.map_cons, List.nodup_cons] at hm
    by_cases he : e.1 = k
    · subst he
      simpa [KeysNoDup, setKV, List.nodup_cons] using hm
    · rw [KeysNoDup, setKV, if_neg he, List.map_cons, List.nodup_cons]
      refine ⟨fun hmem => ?_, keysNoDup_setKV hm.2⟩
      rcases mem_keys_setKV hmem with h | h
      · exact hm.1 h
      · exact he h

theorem mem_setKV {k : String} {v : Node} :
    ∀ {m : List (String × Node)} {e : String × Node},
      e ∈ setKV m k v → e = (k, v) ∨ e ∈ m
  | [], e, h => by
    simp [setKV] at h
    exact Or.inl h
  | e' :: m, e, h => by
    by_cases he : e'.1 = k
    · rw [setKV, if_pos he] at h
      rcases List.mem_cons.mp h with rfl | h
      · exact Or.inl rfl
      · exact Or.inr (List.mem_cons_of_mem e' h)
    · rw [setKV, if_neg he] at h
      rcases List.mem_cons.mp h with rfl | h
      · exact Or.inr (by simp)
      · rcases mem_setKV h with h | h
        · exact Or.inl h
        · exact Or.inr (List.mem_cons_of_mem e' h)

theorem modKeyEqLabel_setKV {k : String} {v : Node} {m : List (String × Node)}
    (hm : ModKeyEqLabel m) (hv : isModuleB v = true → k = labelN v) :
    ModKeyEqLabel (setKV m k v) := by
  intro e he hmod
  rcases mem_setKV he with rfl | he
  · exact hv hmod
  · exact hm e he hmod

/-- One folder-loop step either leaves `rootItems` unchanged or inserts a
fresh empty folder under an absent key, and it maintains the aliasing
invariant "while `currentItems` is still the root map, they are equal". -/
theorem flStep_preserves (P : List (String × Node) → Prop)
    (hP : ∀ m k lbl fp, P m → getKV m k = none →
      P (setKV m k (Node.folder lbl [] fp)))
    (root part : String) (st : FLState)
    (hinv : st.atRoot = true → st.currentItems = st.rootItems)
    (hPm : P st.rootItems) :
    ((flStep root st part).atRoot = true →
      (flStep root st part).currentItems = (flStep root st part).rootItems) ∧
    P (flStep root st part).rootItems := by
  unfold flStep
  by_cases hhas :
      (getKV st.currentItems
        (if st.currentPath = "" then part else st.currentPath ++ "/" ++ part)).isSome = true
  · simp only [hhas, if_true]
    split
    · exact ⟨fun h => by simp at h, by
        by_cases hat : st.atRoot = true
        · simpa [hat, hinv hat] using hPm
        · simpa [hat] using hPm⟩
    · constructor
      · intro hat
        simp only at hat ⊢
        by_cases hat' : st.atRoot = true
        · simp [hat', hinv hat']
        · simp [hat'] at hat
      · by_cases hat : st.atRoot = true
        · simpa [hat, hinv hat] using hPm
        · simpa [hat] using hPm
  · rw [Option.not_isSome_iff_eq_none] at hhas
    simp only [hhas, Option.isSome_none, Bool.false_eq_true, if_false, reduceIte]
    by_cases hat : st.atRoot = true
    · have hcur := hinv hat
      rw [hcur] at hhas
      rw [hcur]
      have hPset := hP st.rootItems _ part
        (root ++ "/" ++ (if st.currentPath = "" then part else st.currentPath ++ "/" ++ part))
        hPm hhas
      split
      · exact ⟨fun h => by simp at h, by simpa [hat] using hPset⟩
      · exact ⟨fun _ => by simp [hat], by simpa [hat] using hPset⟩
    · split
      · exact ⟨fun h => by simp at h, by simpa [hat] using hPm⟩
      · constructor
        · intro h
          simp only at h
          simp [hat] at h
        · simpa [hat] using hPm

/-- The whole folder loop preserves any property of `rootItems` closed
under guarded insertion of fresh empty folders. -/
theorem folderLoop_preserves (P : List (String × Node) → Prop)
    (hP : ∀ m k lbl fp, P m → getKV m k = none →
      P (setKV m k (Node.folder lbl [] fp)))
    (root : String) :
    ∀ (dir : List String) (st : FLState),
      (st.atRoot = true → st.currentItems = st.rootItems) → P st.rootItems →
      P ((dir.foldl (flStep root) st).rootItems)
  | [], st, _, hPm => hPm
  | part :: dir, st, hinv, hPm => by
    rw [List.foldl_cons]
    have h := flStep_preserves P hP root part st hinv hPm
    exact folderLoop_preserves P hP root dir _ h.1 h.2

theorem mapInv_guarded_folder :
    ∀ (m : List (String × Node)) (k lbl fp : String), MapInv m → getKV m k = none →
      MapInv (setKV m k (Node.folder lbl [] fp)) := by
  intro m k lbl fp hm _
  exact ⟨keysNoDup_setKV hm.1, modKeyEqLabel_setKV hm.2 (fun h => by simp [isModuleB] at h)⟩

theorem mapInvAt_guarded_folder (n root : String) :
    ∀ (m : List (String × Node)) (k lbl fp : String), MapInvAt n root m → getKV m k = none →
      MapInvAt n root (setKV m k (Node.folder lbl [] fp)) := by
  intro m k lbl fp hm hnone
  refine ⟨mapInv_guarded_folder m k lbl fp hm.1 hnone, ?_⟩
  obtain ⟨ch, hch⟩ := hm.2
  have hkn : n ≠ k := by
    intro heq
    rw [← heq, hch] at hnone
    exact absurd hnone (by simp)
  exact ⟨ch, by rw [getKV_setKV_other hkn, hch]⟩

/-- Computation of `absPath` at a root-level file. -/
theorem absPathRootFile (root n : String) :
    absPath root ⟨[], n⟩ = root ++ "/" ++ n := rfl

theorem processFile_inv {fsys : String → Option String} {root : String}
    {m : List (String × Node)} {f : RelFile} {m' : List (String × Node)}
    (hm : MapInv m) (h : processFile fsys root m f = Except.ok m') : MapInv m' := by
  have hm1 : MapInv (if f.dir = [] then m else folderLoop root f.dir m) := by
    by_cases hd : f.dir = []
    · simpa [hd] using hm
    · rw [if_neg hd]
      unfold folderLoop
      exact folderLoop_preserves MapInv mapInv_guarded_folder root f.dir _ (fun _ => rfl) hm
  simp only [processFile] at h
  split at h
  · exact absurd h (by simp)
  · rw [Except.ok.injEq] at h
    subst h
    by_cases hd : f.dir = []
    · simp only [if_pos hd]
      simp only [if_pos hd] at hm1
      exact ⟨keysNoDup_setKV hm1.1,
        modKeyEqLabel_setKV hm1.2 (fun _ => by simp [labelN])⟩
    · simp only [if_neg hd]
      simp only [if_neg hd] at hm1
      split
      · exact ⟨keysNoDup_setKV hm1.1,
          modKeyEqLabel_setKV hm1.2 (fun hmod => by simp [isModuleB] at hmod)⟩
      · exact hm1

theorem processFile_preserve_at {fsys : String → Option String} {root : String}
    {m : List (String × Node)} {f : RelFile} {m' : List (String × Node)} (n : String)
    (hm : MapInvAt n root m) (h : processFile fsys root m f = Except.ok m') :
    MapInvAt n root m' := by
  have hm1 : MapInvAt n root (if f.dir = [] then m else folderLoop root f.dir m) := by
    by_cases hd : f.dir = []
    · simpa [hd] using hm
    · rw [if_neg hd]
      unfold folderLoop
      exact folderLoop_preserves (MapInvAt n root) (mapInvAt_guarded_folder n root)
        root f.dir _ (fun _ => rfl) hm
  simp only [processFile] at h
  split at h
  · exact absurd h (by simp)
  · rw [Except.ok.injEq] at h
    subst h
    by_cases hd : f.dir = []
    · simp only [if_pos hd]
      simp only [if_pos hd] at hm1
      refine ⟨⟨keysNoDup_setKV hm1.1.1,
        modKeyEqLabel_setKV hm1.1.2 (fun _ => by simp [labelN])⟩, ?_⟩
      by_cases hfn : f.fileName = n
      · subst hfn
        have hap : absPath root f = root ++ "/" ++ f.fileName := by
          rw [show f = (⟨[], f.fileName⟩ : RelFile) from by
            cases f with
            | mk d fn => simp at hd; simp [hd]]
          rfl
        exact ⟨_, by rw [getKV_setKV_self, hap]⟩
      · obtain ⟨ch, hch⟩ := hm1.2
        exact ⟨ch, by rw [getKV_setKV_other (fun h' => hfn h'.symm), hch]⟩
    · simp only [if_neg hd]
      simp only [if_neg hd] at hm1
      split
      next l cs p heq =>
        refine ⟨⟨keysNoDup_setKV hm1.1.1,
          modKeyEqLabel_setKV hm1.1.2 (fun hmod => by simp [isModuleB] at hmod)⟩, ?_⟩
        obtain ⟨ch, hch⟩ := hm1.2
        have hkn : n ≠ joinSegs f.dir := by
          intro hk
          rw [← hk, hch] at heq
          exact absurd (Option.some_inj.mp heq) (by simp)
        exact ⟨ch, by rw [getKV_setKV_other hkn, hch]⟩
      · exact hm1

theorem processFile_establish {fsys : String → Option String} {root : String}
    {m : List (String × Node)} {m' : List (String × Node)} (n : String)
    (hm : MapInv m) (h : processFile fsys root m ⟨[], n⟩ = Except.ok m') :
    MapInvAt n root m' := by
  simp only [processFile] at h
  split at h
  · exact absurd h (by simp)
  · rw [Except.ok.injEq] at h
    subst h
    simp only [if_true]
    refine ⟨⟨keysNoDup_setKV hm.1,
      modKeyEqLabel_setKV hm.2 (fun _ => by simp [labelN])⟩, ?_⟩
    exact ⟨_, by rw [getKV_setKV_self, absPathRootFile]⟩

theorem processFiles_inv {fsys : String → Option String} {root : String} :
    ∀ {fs : List RelFile} {m m' : List (String × Node)}, MapInv m →
      processFiles fsys root m fs = Except.ok m' → MapInv m'
  | [], m, m', hm, h => by
    rw [processFiles, Except.ok.injEq] at h
    subst h
    exact hm
  | f :: fs, m, m', hm, h => by
    rw [processFiles] at h
    split at h
    · exact absurd h (by simp)
    next m1 h1 => exact processFiles_inv (processFile_inv hm h1) h

theorem processFiles_preserve_at {fsys : String → Option String} {root : String} (n : String) :
    ∀ {fs : List RelFile} {m m' : List (String × Node)}, MapInvAt n root m →
      processFiles fsys root m fs = Except.ok m' → MapInvAt n root m'
  | [], m, m', hm, h => by
    rw [processFiles, Except.ok.injEq] at h
    subst h
    exact hm
  | f :: fs, m, m', hm, h => by
    rw [processFiles] at h
    split at h
    · exact absurd h (by simp)
    next m1 h1 => exact processFiles_preserve_at n (processFile_preserve_at n hm h1) h

theorem processFiles_establish {fsys : String → Option String} {root : String} (n : String) :
    ∀ {fs : List RelFile} {m m' : List (String × Node)}, MapInv m →
      (⟨[], n⟩ : RelFile) ∈ fs →
      processFiles fsys root m fs = Except.ok m' → MapInvAt n root m'
  | [], _, _, _, hmem, _ => absurd hmem (by simp)
  | f :: fs, m, m', hm, hmem, h => by
    rw [processFiles] at h
    split at h
    · exact absurd h (by simp)
    next m1 h1 =>
      rcases List.mem_cons.mp hmem with heq | hmem'
      · rw [← heq] at h1
        exact processFiles_preserve_at n (processFile_establish n hm h1) h
      · exact processFiles_establish n (processFile_inv hm h1) hmem' h

theorem isModuleB_sortNode (lc : String → String → Int) (v : Node) :
    isModuleB (sortNode lc v) = isModuleB v := by
  cases v <;> simp [sortNode, isModuleB]

theorem labelN_sortNode (lc : String → String → Int) (v : Node) :
    labelN (sortNode lc v) = labelN v := by
  cases v <;> simp [sortNode, labelN]

/-- Under the map invariants, the values list contains exactly one module
labeled `n`, namely the one bound at key `n`. -/
theorem filter_values_moduleAt {n root : String} :
    ∀ {m : List (String × Node)}, KeysNoDup m → ModKeyEqLabel m → ModuleAt m n root →
      ∃ ch, (m.map (fun e => e.2)).filter (fun v => isModuleB v && (labelN v == n))
        = [Node.module n ch (root ++ "/" ++ n)]
  | [], _, _, hat => by
    obtain ⟨ch, hch⟩ := hat
    simp [getKV] at hch
  | e :: m, hnd, hkl, hat => by
    obtain ⟨ch, hch⟩ := hat
    have hnd' : (e.1 :: m.map Prod.fst).Nodup := by simpa [KeysNoDup] using hnd
    by_cases he : e.1 = n
    · rw [getKV, List.find?_cons_of_pos _ (by simpa using he)] at hch
      have he2 : e.2 = Node.module n ch (root ++ "/" ++ n) := by simpa using hch
      refine ⟨ch, ?_⟩
      rw [List.map_cons, List.filter_cons, he2]
      rw [show (isModuleB (Node.module n ch (root ++ "/" ++ n)) &&
          (labelN (Node.module n ch (root ++ "/" ++ n)) == n)) = true by
        simp [isModuleB, labelN]]
      simp only [if_true]
      have htail : (m.map (fun e => e.2)).filter (fun v => isModuleB v && (labelN v == n))
          = [] := by
        refine List.filter_eq_nil_iff.mpr ?_
        intro v hv hpred
        obtain ⟨e', he', rfl⟩ := List.mem_map.mp hv
        rw [Bool.and_eq_true, beq_iff_eq] at hpred
        have hk' : e'.1 = n := by rw [hkl e' (List.mem_cons_of_mem e he') hpred.1, hpred.2]
        have hmemk : e.1 ∈ m.map Prod.fst := by
          rw [he, ← hk']
          exact List.mem_map_of_mem Prod.fst he'
        exact (List.nodup_cons.mp hnd').1 hmemk
      rw [htail]
    · rw [getKV, List.find?_cons_of_neg _ (by simpa using he)] at hch
      have hpred : (isModuleB e.2 && (labelN e.2 == n)) = false := by
        by_contra hp
        rw [Bool.not_eq_false, Bool.and_eq_true, beq_iff_eq] at hp
        exact he (by rw [hkl e (by simp) hp.1, hp.2])
      obtain ⟨ch', hfil⟩ := filter_values_moduleAt
        (by simpa [KeysNoDup] using (List.nodup_cons.mp hnd').2)
        (fun e' he' => hkl e' (List.mem_cons_of_mem e he'))
        ⟨ch, hch⟩
      refine ⟨ch', ?_⟩
      rw [List.map_cons, List.filter_cons, hpred]
      simpa using hfil

/-- C10: with two workspace roots that both contain a root-level task
file named `n`, the built tree holds exactly one module labeled `n` — the
bindings share the single `rootItems` map keyed by bare file name, so the
later-enumerated root's file replaces the earlier one and the surviving
module's path lies under the second root. -/
theorem c10_same_name_collapse (lc : String → String → Int)
    (fsys : String → Option String) (r1 r2 n : String) (fs1 fs2 : List RelFile)
    (_h1 : (⟨[], n⟩ : RelFile) ∈ fs1) (h2 : (⟨[], n⟩ : RelFile) ∈ fs2)
    (items : List Node)
    (hok : buildFileTree lc fsys (some [(r1, fs1), (r2, fs2)]) = Except.ok items) :
    ∃ ch, items.filter (fun v => isModuleB v && (labelN v == n)) =
      [Node.module n ch (r2 ++ "/" ++ n)] := by
  simp only [buildFileTree] at hok
  split at hok
  · exact absurd hok (by simp)
  next mB hpf =>
    rw [Except.ok.injEq] at hok
    subst hok
    simp only [processFolders] at hpf
    split at hpf
    · exact absurd hpf (by simp)
    next mA hA =>
      split at hpf
      · exact absurd hpf (by simp)
      next mB2 hB =>
        rw [Except.ok.injEq] at hpf
        subst hpf
        have hInvA : MapInv mA :=
          processFiles_inv ⟨by simp [KeysNoDup], by simp [ModKeyEqLabel]⟩ hA
        have hInvB : MapInvAt n r2 mB2 := processFiles_establish n hInvA h2 hB
        obtain ⟨ch, hfil⟩ := filter_values_moduleAt hInvB.1.1 hInvB.1.2 hInvB.2
        refine ⟨ch.insertionSort (taskLe lc), ?_⟩
        unfold sortItems
        have hfperm := List.Perm.filter (fun v => isModuleB v && (labelN v == n))
          (List.perm_insertionSort (nodeLe lc) (sortNodes lc (mB2.map (fun e => e.2))))
        rw [sortNodes_eq_map, List.filter_map] at hfperm
        have hcongr :
            (mB2.map (fun e => e.2)).filter
              ((fun v => isModuleB v && (labelN v == n)) ∘ sortNode lc)
            = (mB2.map (fun e => e.2)).filter (fun v => isModuleB v && (labelN v == n)) := by
          apply List.filter_congr
          intro a _
          simp [Function.comp, isModuleB_sortNode, labelN_sortNode]
        rw [hcongr, hfil] at hfperm
        rw [show List.map (sortNode lc) [Node.module n ch (r2 ++ "/" ++ n)]
            = [Node.module n (ch.insertionSort (taskLe lc)) (r2 ++ "/" ++ n)] by
          simp [sortNode]] at hfperm
        rw [sortNodes_eq_map]
        exact List.perm_singleton.mp hfperm

/-- C10 witness: two roots, each with a root-level `task_m.py`; the tree
holds a single module for that name, from the second root. -/
theorem c10_same_name_collapse_witness :
    ∃ ch, (([Node.module "task_m.py" [⟨"task_f", "r2/task_m.py", 1⟩] "r2/task_m.py"]).filter
        (fun v => isModuleB v && (labelN v == "task_m.py"))) =
      [Node.module "task_m.py" ch ("r2" ++ "/" ++ "task_m.py")] :=
  c10_same_name_collapse lc0 (fun _ => some "def task_f():\n    pass")
    "r1" "r2" "task_m.py" [⟨[], "task_m.py"⟩] [⟨[], "task_m.py"⟩]
    (by simp) (by simp)
    [Node.module "task_m.py" [⟨"task_f", "r2/task_m.py", 1⟩] "r2/task_m.py"] rfl
